import Mathlib

/-!
Verification of the key-space reconciliation engine of
`translation_helper.py` (android-localization-helper).

The Python script works on `xml.etree.ElementTree` trees.  We embed the
parsed-tree data model shallowly: an `Element` carries its tag, its
attribute list (in insertion order, as Python 3 dicts preserve it), its
text, its child elements and its tail text.  Functions that can raise a
Python exception (`getKeysFromTree` dereferences a possibly-missing
`name` attribute) return `Option`; `none` models the raised exception.
Filesystem access is abstracted: `getLanguageTrees` receives a map from
locale code to the parsed `strings.xml` tree when that file exists, and
`getLangsFromDir` receives the list of directory paths produced by the
recursive directory walk.
-/

namespace TranslationHelper

/-- A parsed XML element: tag name, attributes (insertion order), text,
child elements, and tail text.  Python's `None` text/tail is modelled as
`""` (the serializer treats them identically). -/
inductive Element where
  | mk (tag : String) (attrs : List (String × String)) (text : String)
       (children : List Element) (tail : String)

def Element.tag : Element → String
  | .mk t _ _ _ _ => t

def Element.attrs : Element → List (String × String)
  | .mk _ a _ _ _ => a

def Element.text : Element → String
  | .mk _ _ x _ _ => x

def Element.children : Element → List Element
  | .mk _ _ _ c _ => c

def Element.tail : Element → String
  | .mk _ _ _ _ tl => tl

/-- `elem.get(k)`: first attribute with the given key, if any. -/
def Element.attr (e : Element) (k : String) : Option String :=
  (e.attrs.find? (fun p => p.1 == k)).map (fun p => p.2)

/-- `elem.get(k, default=d)`. -/
def Element.attrD (e : Element) (k d : String) : String :=
  (e.attr k).getD d

/-- A key is the pair `(child.tag, child.get('name'))`; the second
component is an `Option` because `Element.get` can return `None`. -/
abbrev Key := String × Option String

/-- Boolean list-prefix test (structural, kernel-reducible); models
Python's `str.startswith`. -/
def isPrefixB : List Char → List Char → Bool
  | [], _ => true
  | _ :: _, [] => false
  | a :: as, b :: bs => a == b && isPrefixB as bs

/-- Boolean substring test (`pat in s` on character lists). -/
def isSubB (pat : List Char) : List Char → Bool
  | [] => pat.isEmpty
  | c :: cs => isPrefixB pat (c :: cs) || isSubB pat cs

/-- Worker for `getKeysFromTree`: iterates the root's children in
order.  A child whose `translatable` attribute (default `'true'`) is
`'false'` is skipped; otherwise `child.get('name').startswith('provider.')`
is evaluated, which raises (modelled by `none`) when the `name`
attribute is absent; `provider.`-prefixed names are skipped; all other
children contribute `(child.tag, child.get('name'))`. -/
def getKeysFromList : List Element → Option (List Key)
  | [] => some []
  | c :: rest =>
    if c.attrD "translatable" "true" == "false" then getKeysFromList rest
    else
      match c.attr "name" with
      | none => none
      | some n =>
        if isPrefixB "provider.".toList n.toList then getKeysFromList rest
        else (getKeysFromList rest).map (fun ks => (c.tag, some n) :: ks)

/-- `getKeysFromTree(tree)` (the argument is the tree's root element). -/
def getKeysFromTree (root : Element) : Option (List Key) :=
  getKeysFromList root.children

/-- `getKeysFromTrees(trees)`: concatenates the per-tree key lists in
list order; an exception in any tree aborts the whole computation. -/
def getKeysFromTrees : List Element → Option (List Key)
  | [] => some []
  | t :: ts => do
    let ks ← getKeysFromTree t
    let rest ← getKeysFromTrees ts
    pure (ks ++ rest)

/-- `getTagsFromTree(tree)`: every child of the root, unfiltered. -/
def getTagsFromTree (root : Element) : List Element :=
  root.children

/-- `getTagsFromTrees(trees)`. -/
def getTagsFromTrees (ts : List Element) : List Element :=
  (ts.map getTagsFromTree).flatten

/-- `intersection(a, b)`: `[el for el in a if el in b]`. -/
def intersection {α : Type} [DecidableEq α] (a b : List α) : List α :=
  a.filter (fun el => decide (el ∈ b))

/-- `difference(a, b)`: `[el for el in a if el not in b]`. -/
def difference {α : Type} [DecidableEq α] (a b : List α) : List α :=
  a.filter (fun el => !(decide (el ∈ b)))

/-- `(tag.tag, tag.get('name')) == key`. -/
def keyMatch (tg : Element) (key : Key) : Bool :=
  decide ((tg.tag, tg.attr "name") = key)

/-- `getTagByKeyName(tags, key)`: first tag whose `(tag, name)` pair
equals `key`; `None` (falling off the loop) if there is none. -/
def getTagByKeyName (tags : List Element) (key : Key) : Option Element :=
  tags.find? (fun tg => keyMatch tg key)

/-- `getLanguageTrees(langs, res_path)`.  `fs code` is the parsed
`values-<code>/strings.xml` tree when that file exists.  Only languages
whose translation file exists get an entry, in `langs` order. -/
def getLanguageTrees (langs : List String) (fs : String → Option Element) :
    List (String × Element) :=
  langs.filterMap (fun l => (fs l).map (fun t => (l, t)))

/-- `findMissingKeys(keys, langs, res_path)`: for each language that has
a parsed tree, the ordered difference between the canonical keys and the
keys extracted (by `getKeysFromTree`, hence filtered) from that tree. -/
def findMissingKeys (keys : List Key) (langs : List String)
    (fs : String → Option Element) : Option (List (String × List Key)) :=
  (getLanguageTrees langs fs).mapM
    (fun p => (getKeysFromTree p.2).map (fun kt => (p.1, difference keys kt)))

/-- The keys kept by `cleanTranslationFiles` for one locale tree: the
ordered intersection of the canonical keys with the locale's extracted
(filtered) keys. -/
def cleanKeptKeys (keys : List Key) (t : Element) : Option (List Key) :=
  (getKeysFromTree t).map (fun kt => intersection keys kt)

/-- The children appended to the fresh `resources` root by
`cleanTranslationFiles` for one locale tree, each looked up in the
locale's own tag list. -/
def cleanRootChildren (keys : List Key) (t : Element) :
    Option (List (Option Element)) :=
  (getKeysFromTree t).map
    (fun kt => (intersection keys kt).map (getTagByKeyName (getTagsFromTree t)))

/-- `getLangDir(dir_name)`: `dir_name[2:]` must start with `values-`,
and the code `dir_name[9:]` must have length 2, or length 5 or 6 with a
`-` at index 2, or contain `port` or `land` as a substring with a `-` at
index 2.  (`code[2]` is modelled with a safe index: whenever Python
evaluates `code[2]` the earlier conjunct already guarantees
`len(code) >= 3`, so no `IndexError` can occur.) -/
def getLangDir (dirName : String) : Option String :=
  if isPrefixB "values-".toList (dirName.toList.drop 2) then
    if (dirName.toList.drop 9).length == 2
        || ((dirName.toList.drop 9).length == 5 && (dirName.toList.drop 9)[2]? == some '-')
        || ((dirName.toList.drop 9).length == 6 && (dirName.toList.drop 9)[2]? == some '-')
        || (isSubB "port".toList (dirName.toList.drop 9)
              && (dirName.toList.drop 9)[2]? == some '-')
        || (isSubB "land".toList (dirName.toList.drop 9)
              && (dirName.toList.drop 9)[2]? == some '-') then
      some (String.mk (dirName.toList.drop 9))
    else none
  else none

/-- `getLangsFromDir(res_path)`: `walked` is the list of directory paths
yielded by `os.walk('.')` (the root `'.'` and every descendant
directory, each as `./relative/path`); the accepted codes, in walk
order. -/
def getLangsFromDir (walked : List String) : List String :=
  walked.filterMap getLangDir

/-- `xml.etree`'s `_escape_cdata` (applied to text and tails), as a
character map: `&`, `<`, `>` become entities, everything else is kept. -/
def escCdataChar (c : Char) : List Char :=
  if c == '&' then "&amp;".toList
  else if c == '<' then "&lt;".toList
  else if c == '>' then "&gt;".toList
  else [c]

def escCdata (s : String) : List Char :=
  (s.toList.map escCdataChar).flatten

/-- `xml.etree`'s `_escape_attrib` as a character map. -/
def escAttrChar (c : Char) : List Char :=
  if c == '&' then "&amp;".toList
  else if c == '<' then "&lt;".toList
  else if c == '>' then "&gt;".toList
  else if c == '"' then "&quot;".toList
  else if c == '\r' then "&#13;".toList
  else if c == '\n' then "&#10;".toList
  else if c == '\t' then "&#09;".toList
  else [c]

def escAttr (s : String) : List Char :=
  (s.toList.map escAttrChar).flatten

/-- Serialized attribute list: ` name="value"` per attribute, in
insertion order (Python 3 writes attributes in insertion order). -/
def attrsChars (attrs : List (String × String)) : List Char :=
  (attrs.map (fun p => ' ' :: p.1.toList ++ '=' :: '"' :: escAttr p.2 ++ ['"'])).flatten

mutual

/-- `xml.etree`'s `_serialize_xml` with `short_empty_elements=True`:
open tag with attributes, then either ` />` (no text, no children) or
`>` text children `</tag>`, followed by the element's escaped tail. -/
def serializeElem : Element → List Char
  | .mk tag attrs text children tail =>
    (('<' :: tag.toList ++ attrsChars attrs)
      ++ (if text.isEmpty && children.isEmpty then " /".toList
          else '>' :: escCdata text ++ serializeChildren children
                ++ '<' :: '/' :: tag.toList)
      ++ ['>']) ++ escCdata tail

def serializeChildren : List Element → List Char
  | [] => []
  | c :: cs => serializeElem c ++ serializeChildren cs

end

/-- An element's own serialized payload: `serializeElem` without the
trailing tail text.  By construction it starts with `<` and ends with
`>`. -/
def serializeCore (e : Element) : List Char :=
  ('<' :: e.tag.toList ++ attrsChars e.attrs)
    ++ (if e.text.isEmpty && e.children.isEmpty then " /".toList
        else '>' :: escCdata e.text ++ serializeChildren e.children
              ++ '<' :: '/' :: e.tag.toList)
    ++ ['>']

/-- The XML declaration header the script guarantees (either added by
`tostring` or prepended manually when `tostring` omitted it). -/
def xmlDecl : List Char := "<?xml version='1.0' encoding='UTF-8'?>\n".toList

/-- The whitespace block inserted by `prettify`'s indentation fix. -/
def wsBlock : List Char := "\n    ".toList

/-- The lookahead of the pattern `><string` after its leading `>`. -/
def sPat : List Char := "<string".toList

/-- `output.replace('><string', '>\n    <string')`.  `str.replace`
substitutes non-overlapping occurrences left to right; since the pattern
contains `>` only at position 0 occurrences can never overlap, and the
inserted block contains no `>`, so the replacement is exactly: insert
the whitespace block after every `>` that is immediately followed by
`<string`. -/
def replaceTag : List Char → List Char
  | [] => []
  | c :: cs =>
    (if c == '>' && isPrefixB sPat cs then c :: wsBlock else [c]) ++ replaceTag cs

/-- `prettify(elem)`: declaration header plus the serialized tree, with
the indentation fix applied to the whole string. -/
def prettify (root : Element) : List Char :=
  replaceTag (xmlDecl ++ serializeElem root)

/-- The fresh `ET.Element('resources')` root with the given children
appended (`writeMissingKeysToFiles` / `cleanTranslationFiles`). -/
def resRoot (cs : List Element) : Element :=
  .mk "resources" [] "" cs ""

/-- One child's contribution to the prettified output: an optional
inserted indentation block (when the preceding character is a `>`
immediately followed by this child's `<string...` open tag) followed by
the child's serialization (payload and tail). -/
def emitChild (b : Bool) (c : Element) : List Char :=
  (if b then wsBlock else []) ++ serializeElem c

/-- The exclusion rule of `getKeysFromTree`, as a predicate on a child:
`translatable` attribute explicitly `"false"`, or `name` starting with
`provider.` (stated on the attribute's value when present). -/
def keyExcluded (c : Element) : Bool :=
  c.attrD "translatable" "true" == "false"
    || isPrefixB "provider.".toList ((c.attr "name").getD "").toList

/- Concrete fixtures used by the witness theorems, mirroring the shape
of the repository's test resources. -/

def entry (nm txt : String) : Element :=
  Element.mk "string" [("name", nm)] txt [] ""

def exProvider : Element :=
  Element.mk "string" [("name", "provider.x")] "P" [] ""

def exUntranslatable : Element :=
  Element.mk "string" [("name", "nt"), ("translatable", "false")] "N" [] ""

def exNameless : Element :=
  Element.mk "string" [] "X" [] ""

def exNamelessFalse : Element :=
  Element.mk "string" [("translatable", "false")] "X" [] ""

def exDefaultTree : Element :=
  resRoot [entry "test_1" "One", exProvider, exUntranslatable, entry "test_2" "Two"]

def exLocaleTreeDe : Element :=
  resRoot [entry "test_2" "Zwei"]

/-- A locale document whose only entry matches the canonical key
`("string", "k")` but is marked `translatable="false"`. -/
def exUntransLocale : Element :=
  resRoot [Element.mk "string" [("name", "k"), ("translatable", "false")] "X" [] ""]

def exDupTree1 : Element := resRoot [entry "dup" "A"]

def exDupTree2 : Element := resRoot [entry "dup" "B"]

/-- An entry that nests a `string`-tagged element directly after a `>`:
its serialization contains `><string`, so `prettify`'s indentation fix
rewrites the inside of this entry. -/
def exNested : Element :=
  Element.mk "outer" [] "" [Element.mk "string" [("name", "a")] "" [] ""] ""

/-! ## Helper lemmas about the reconciliation primitives -/

lemma mem_difference {α : Type} [DecidableEq α] {a b : List α} {x : α} :
    x ∈ difference a b ↔ x ∈ a ∧ x ∉ b := by
  simp [difference, List.mem_filter]

lemma mem_intersection {α : Type} [DecidableEq α] {a b : List α} {x : α} :
    x ∈ intersection a b ↔ x ∈ a ∧ x ∈ b := by
  simp [intersection, List.mem_filter]

/-- Claim C3: over the canonical key space `K` and the considered key
set `T` of a locale with an existing document, each key of `K` lies in
exactly one of `difference K T` (the missing report) and
`intersection K T` (the keys kept by the clean path), and every
occurrence of a duplicated canonical key falls on the same side (the
occurrence counts of the two sides add up to the count in `K`). -/
theorem c3_missing_kept_partition (K : List Key) (t : Element) (T : List Key)
    (_h : getKeysFromTree t = some T) (k : Key) (hk : k ∈ K) :
    ((k ∈ difference K T ∧ k ∉ intersection K T)
      ∨ (k ∉ difference K T ∧ k ∈ intersection K T))
    ∧ (difference K T).count k + (intersection K T).count k = K.count k := by
  constructor
  · by_cases hb : k ∈ T
    · right
      refine ⟨fun hmem => (mem_difference.mp hmem).2 hb, mem_intersection.mpr ⟨hk, hb⟩⟩
    · left
      refine ⟨mem_difference.mpr ⟨hk, hb⟩, fun hmem => hb (mem_intersection.mp hmem).2⟩
  · by_cases hb : k ∈ T
    · have h1 : (difference K T).count k = 0 :=
        List.count_eq_zero.mpr (fun hmem => (mem_difference.mp hmem).2 hb)
      have h2 : (intersection K T).count k = K.count k :=
        List.count_filter (by simp [hb])
      rw [h1, h2, Nat.zero_add]
    · have h1 : (intersection K T).count k = 0 :=
        List.count_eq_zero.mpr (fun hmem => hb (mem_intersection.mp hmem).2)
      have h2 : (difference K T).count k = K.count k :=
        List.count_filter (by simp [hb])
      rw [h1, h2, Nat.add_zero]

/-- Witness for C3 at a concrete key space and locale document. -/
theorem c3_missing_kept_partition_witness :
    (getKeysFromTree exLocaleTreeDe = some [("string", some "test_2")]
      ∧ ("string", some "test_1") ∈ [(("string" : String), some "test_1"), ("string", some "test_2")])
    ∧ (((("string" : String), some "test_1") ∈
          difference [(("string" : String), some "test_1"), ("string", some "test_2")]
            [(("string" : String), some "test_2")]
        ∧ (("string" : String), some "test_1") ∉
          intersection [(("string" : String), some "test_1"), ("string", some "test_2")]
            [(("string" : String), some "test_2")])
      ∨ ((("string" : String), some "test_1") ∉
          difference [(("string" : String), some "test_1"), ("string", some "test_2")]
            [(("string" : String), some "test_2")]
        ∧ (("string" : String), some "test_1") ∈
          intersection [(("string" : String), some "test_1"), ("string", some "test_2")]
            [(("string" : String), some "test_2")]))
    ∧ (difference [(("string" : String), some "test_1"), ("string", some "test_2")]
          [(("string" : String), some "test_2")]).count ("string", some "test_1")
        + (intersection [(("string" : String), some "test_1"), ("string", some "test_2")]
          [(("string" : String), some "test_2")]).count ("string", some "test_1")
        = [(("string" : String), some "test_1"), ("string", some "test_2")].count ("string", some "test_1") :=
  ⟨⟨by decide, by decide⟩,
    c3_missing_kept_partition _ exLocaleTreeDe _ (by decide) _ (by decide)⟩

/-- Claim C4: `difference K T` and `intersection K T` are subsequences
of `K`, in `K`'s original order; hence the missing-key list and the
kept-key ordering of the clean path always follow canonical order. -/
theorem c4_subsequences_of_canonical (K T : List Key) :
    List.Sublist (difference K T) K ∧ List.Sublist (intersection K T) K :=
  ⟨List.filter_sublist K, List.filter_sublist K⟩

lemma getKeysFromList_eq_filter (l : List Element)
    (h : ∀ c ∈ l, c.attrD "translatable" "true" = "false" ∨ (c.attr "name").isSome = true) :
    getKeysFromList l =
      some ((l.filter (fun c => !keyExcluded c)).map (fun c => (c.tag, c.attr "name"))) := by
  induction l with
  | nil => rfl
  | cons c rest ih =>
    have hrest := fun x hx => h x (List.mem_cons_of_mem _ hx)
    by_cases htr : c.attrD "translatable" "true" = "false"
    · have hex : keyExcluded c = true := by simp [keyExcluded, htr]
      simp [getKeysFromList, htr, hex, ih hrest]
    · have hbe : (c.attrD "translatable" "true" == "false") = false :=
        beq_eq_false_iff_ne.mpr htr
      have hname := (h c (List.mem_cons_self c rest)).resolve_left htr
      obtain ⟨n, hn⟩ := Option.isSome_iff_exists.mp hname
      by_cases hp : isPrefixB "provider.".toList n.toList = true
      · have hp2 : isPrefixB ['p', 'r', 'o', 'v', 'i', 'd', 'e', 'r', '.'] n.data = true := hp
        have hex : keyExcluded c = true := by simp [keyExcluded, hn, hp2]
        simp [getKeysFromList, hbe, hn, hp2, hex, ih hrest]
      · have hp2 : isPrefixB ['p', 'r', 'o', 'v', 'i', 'd', 'e', 'r', '.'] n.data = false :=
          Bool.eq_false_iff.mpr hp
        have hex : keyExcluded c = false := by
          simp [keyExcluded, hbe, hn, hp2]
        simp [getKeysFromList, hbe, hn, hp2, hex, ih hrest]

/-- Claim C5: on a document each of whose children either is marked
`translatable="false"` or carries a `name` attribute, `getKeysFromTree`
keeps exactly the children that are not excluded, where exclusion holds
if and only if the `translatable` attribute is explicitly `"false"`
(absence means translatable) or the name starts with `provider.` —
independent of the child's position. -/
theorem c5_exclusion_rule (root : Element)
    (h : ∀ c ∈ root.children, c.attrD "translatable" "true" = "false"
          ∨ (c.attr "name").isSome = true) :
    getKeysFromTree root =
      some ((root.children.filter (fun c => !keyExcluded c)).map
        (fun c => (c.tag, c.attr "name"))) :=
  getKeysFromList_eq_filter root.children h

/-- Witness for C5 on a document containing a kept entry, a
`provider.`-prefixed entry and a `translatable="false"` entry. -/
theorem c5_exclusion_rule_witness :
    (∀ c ∈ exDefaultTree.children, c.attrD "translatable" "true" = "false"
        ∨ (c.attr "name").isSome = true)
    ∧ getKeysFromTree exDefaultTree =
        some ((exDefaultTree.children.filter (fun c => !keyExcluded c)).map
          (fun c => (c.tag, c.attr "name"))) :=
  ⟨by decide, c5_exclusion_rule exDefaultTree (by decide)⟩

lemma getKeysFromList_none_of_bad (l : List Element)
    (h : ∃ c ∈ l, c.attr "name" = none ∧ ¬ c.attrD "translatable" "true" = "false") :
    getKeysFromList l = none := by
  induction l with
  | nil => simp at h
  | cons c rest ih =>
    obtain ⟨c0, hc0, hnm, htr⟩ := h
    rcases List.mem_cons.mp hc0 with hc | hc
    · subst hc
      have hbe : (c0.attrD "translatable" "true" == "false") = false :=
        beq_eq_false_iff_ne.mpr htr
      simp [getKeysFromList, hbe, hnm]
    · have hres := ih ⟨c0, hc, hnm, htr⟩
      by_cases htr' : c.attrD "translatable" "true" = "false"
      · simp [getKeysFromList, htr', hres]
      · have hbe : (c.attrD "translatable" "true" == "false") = false :=
          beq_eq_false_iff_ne.mpr htr'
        cases hn : c.attr "name" with
        | none => simp [getKeysFromList, hbe, hn]
        | some n =>
          by_cases hp : isPrefixB ['p', 'r', 'o', 'v', 'i', 'd', 'e', 'r', '.'] n.data = true
          · simp [getKeysFromList, hbe, hn, hp, hres]
          · simp [getKeysFromList, hbe, hn, Bool.eq_false_iff.mpr hp, hres]

lemma getKeysFromList_isSome_of_named (l : List Element)
    (h : ∀ c ∈ l, c.attr "name" = none → c.attrD "translatable" "true" = "false") :
    (getKeysFromList l).isSome = true := by
  induction l with
  | nil => rfl
  | cons c rest ih =>
    have hrest := ih (fun x hx => h x (List.mem_cons_of_mem _ hx))
    by_cases htr : c.attrD "translatable" "true" = "false"
    · simp [getKeysFromList, htr, hrest]
    · have hbe : (c.attrD "translatable" "true" == "false") = false :=
        beq_eq_false_iff_ne.mpr htr
      cases hn : c.attr "name" with
      | none => exact absurd (h c (List.mem_cons_self c rest) hn) htr
      | some n =>
        by_cases hp : isPrefixB ['p', 'r', 'o', 'v', 'i', 'd', 'e', 'r', '.'] n.data = true
        · simp [getKeysFromList, hbe, hn, hp, hrest]
        · simp [getKeysFromList, hbe, hn, Bool.eq_false_iff.mpr hp, hrest]

/-- Claim C10: key extraction is partial — a child lacking a `name`
attribute and not marked `translatable="false"` makes `getKeysFromTree`
raise (the prefix test is applied to the absent attribute), modelled as
`none`; and if every nameless child is marked `translatable="false"`,
extraction succeeds (such children are skipped without error). -/
theorem c10_nameless_entry_partiality (root : Element) :
    ((∃ c ∈ root.children, c.attr "name" = none
        ∧ ¬ c.attrD "translatable" "true" = "false") →
      getKeysFromTree root = none)
    ∧ ((∀ c ∈ root.children, c.attr "name" = none →
        c.attrD "translatable" "true" = "false") →
      (getKeysFromTree root).isSome = true) :=
  ⟨fun h => getKeysFromList_none_of_bad root.children h,
   fun h => getKeysFromList_isSome_of_named root.children h⟩

/-- Witness for C10: a nameless translatable entry raises; a nameless
entry marked `translatable="false"` is skipped without error. -/
theorem c10_nameless_entry_partiality_witness :
    getKeysFromTree (resRoot [entry "test_1" "One", exNameless]) = none
    ∧ (getKeysFromTree (resRoot [exNamelessFalse, entry "test_1" "One"])).isSome = true :=
  ⟨(c10_nameless_entry_partiality (resRoot [entry "test_1" "One", exNameless])).1 (by decide),
   (c10_nameless_entry_partiality (resRoot [exNamelessFalse, entry "test_1" "One"])).2 (by decide)⟩

/-- Claim C1, evaluated at the failing input: canonical key space
`[("string","a")]`, one discovered locale `de` whose `values-de`
directory exists but contains no strings file (`fun _ => none`).
`findMissingKeys` returns a map with no entry at all for `de` (and
`writeMissingKeysToFiles` would then fail looking up `missing['de']`),
whereas the claim and the spec require the entry to be the full
canonical key space. -/
theorem c1_absent_document_dropped :
    findMissingKeys [("string", some "a")] ["de"] (fun _ => none) = some [] := by
  decide

/-- Claim C2 counterexample: the canonical key `("string","k")` is
matched in the locale document `exUntransLocale` only by an entry with
`translatable="false"`; `findMissingKeys` applies the entry filter to
the locale document (line 229 calls `getKeysFromTree`), so the key IS
reported missing — contradicting the claim that such an entry still
counts as present. -/
theorem c2_counterexample_filter_applied :
    findMissingKeys [("string", some "k")] ["xx"] (fun _ => some exUntransLocale)
      = some [("xx", [("string", some "k")])] := by
  decide

/-- Claim C2 amended: `findMissingKeys` tests each canonical key's
presence against the locale document's FILTERED key set `kt` (the same
`getKeysFromTree` extraction used for canonical documents): the missing
list for the locale is exactly the canonical keys not in `kt`, so a
locale entry with `translatable="false"` or a `provider.`-prefixed name
does not count as present. -/
theorem c2_amended_filtered_presence (keys : List Key) (l : String)
    (t : Element) (kt : List Key) (h : getKeysFromTree t = some kt) :
    findMissingKeys keys [l] (fun _ => some t) = some [(l, difference keys kt)]
    ∧ ∀ k : Key, k ∈ difference keys kt ↔ (k ∈ keys ∧ k ∉ kt) := by
  constructor
  · simp [findMissingKeys, getLanguageTrees, List.mapM, List.mapM.loop, h]
  · intro k
    exact mem_difference

/-- Witness for the amended C2. -/
theorem c2_amended_filtered_presence_witness :
    getKeysFromTree exUntransLocale = some []
    ∧ (findMissingKeys [(("string" : String), some "k")] ["xx"]
          (fun _ => some exUntransLocale)
        = some [("xx", difference [(("string" : String), some "k")] ([] : List Key))]
      ∧ ∀ k : Key, k ∈ difference [(("string" : String), some "k")] ([] : List Key) ↔
          (k ∈ [(("string" : String), some "k")] ∧ k ∉ ([] : List Key))) :=
  ⟨by decide,
   c2_amended_filtered_presence [("string", some "k")] "xx" exUntransLocale [] (by decide)⟩

lemma find?_eq_some_split {α : Type} {p : α → Bool} {l : List α} {x : α}
    (h : l.find? p = some x) :
    ∃ l1 l2, l = l1 ++ x :: l2 ∧ p x = true ∧ ∀ y ∈ l1, p y = false := by
  induction l with
  | nil => simp at h
  | cons a as ih =>
    cases hpa : p a with
    | true =>
      have hax : a = x := by
        have := h
        rw [List.find?_cons, hpa] at this
        exact Option.some.inj this
      subst hax
      exact ⟨[], as, rfl, hpa, by simp⟩
    | false =>
      have h' : as.find? p = some x := by
        have := h
        rwa [List.find?_cons, hpa] at this
      obtain ⟨l1, l2, hsplit, hpx, hfst⟩ := ih h'
      refine ⟨a :: l1, l2, by rw [hsplit, List.cons_append], hpx, ?_⟩
      intro y hy
      rcases List.mem_cons.mp hy with rfl | hy
      · exact hpa
      · exact hfst y hy

lemma getKeysFromTrees_eq_flatten (ts : List Element) (kss : List (List Key))
    (h : ts.mapM getKeysFromTree = some kss) :
    getKeysFromTrees ts = some kss.flatten := by
  induction ts generalizing kss with
  | nil =>
    rw [List.mapM_nil] at h
    cases Option.some.inj h
    rfl
  | cons t ts ih =>
    rw [List.mapM_cons] at h
    cases hk : getKeysFromTree t with
    | none => rw [hk] at h; simp at h
    | some ks =>
      rw [hk] at h
      cases hks : ts.mapM getKeysFromTree with
      | none => rw [hks] at h; simp at h
      | some rest =>
        rw [hks] at h
        simp only [Option.bind_some, Option.pure_def] at h
        cases Option.some.inj h
        simp [getKeysFromTrees, hk, ih rest hks]

/-- Claim C6: `getKeysFromTrees` lists duplicated keys once per
occurrence — it is the concatenation, in file-list then document order,
of the per-tree key lists, with per-key occurrence counts adding up and
no de-duplication; and `getTagByKeyName` returns the first element in
scan order whose `(tag, name)` pair equals the key (every earlier
element fails the match). -/
theorem c6_no_dedup_first_match (ts : List Element) (kss : List (List Key))
    (h : ts.mapM getKeysFromTree = some kss)
    (tags : List Element) (key : Key) (tg : Element)
    (hfind : getTagByKeyName tags key = some tg) :
    getKeysFromTrees ts = some kss.flatten
    ∧ (∀ k : Key, kss.flatten.count k = (kss.map (fun l => l.count k)).sum)
    ∧ keyMatch tg key = true
    ∧ ∃ pre post, tags = pre ++ tg :: post ∧ ∀ y ∈ pre, keyMatch y key = false := by
  obtain ⟨pre, post, hsplit, hpx, hfst⟩ := find?_eq_some_split hfind
  refine ⟨getKeysFromTrees_eq_flatten ts kss h, ?_, hpx, pre, post, hsplit, hfst⟩
  intro k
  rw [List.count_flatten]

/-- Witness for C6: the same key `("string","dup")` occurs in each of two
canonical trees; it is listed twice, and lookup returns the first of the
two matching tags. -/
theorem c6_no_dedup_first_match_witness :
    ([exDupTree1, exDupTree2].mapM getKeysFromTree
        = some [[("string", some "dup")], [("string", some "dup")]]
      ∧ getTagByKeyName (getTagsFromTrees [exDupTree1, exDupTree2]) ("string", some "dup")
        = some (entry "dup" "A"))
    ∧ (getKeysFromTrees [exDupTree1, exDupTree2]
        = some [[(("string" : String), some "dup")], [("string", some "dup")]].flatten
      ∧ (∀ k : Key, [[(("string" : String), some "dup")], [("string", some "dup")]].flatten.count k
          = ([[(("string" : String), some "dup")], [("string", some "dup")]].map
              (fun l => l.count k)).sum)
      ∧ keyMatch (entry "dup" "A") ("string", some "dup") = true
      ∧ ∃ pre post, getTagsFromTrees [exDupTree1, exDupTree2] = pre ++ entry "dup" "A" :: post
          ∧ ∀ y ∈ pre, keyMatch y ("string", some "dup") = false) :=
  ⟨⟨by rfl, by rfl⟩,
   c6_no_dedup_first_match [exDupTree1, exDupTree2]
     [[("string", some "dup")], [("string", some "dup")]] (by rfl)
     (getTagsFromTrees [exDupTree1, exDupTree2]) ("string", some "dup")
     (entry "dup" "A") (by rfl)⟩

lemma getKeysFromList_origin (l : List Element) (ks : List Key)
    (h : getKeysFromList l = some ks) (k : Key) (hk : k ∈ ks) :
    ∃ c ∈ l, keyMatch c k = true := by
  induction l generalizing ks with
  | nil =>
    cases Option.some.inj h
    simp at hk
  | cons c rest ih =>
    rw [getKeysFromList] at h
    split at h
    · obtain ⟨c', hc', hm⟩ := ih ks h hk
      exact ⟨c', List.mem_cons_of_mem _ hc', hm⟩
    · split at h
      · cases h
      · rename_i n hn
        split at h
        · obtain ⟨c', hc', hm⟩ := ih ks h hk
          exact ⟨c', List.mem_cons_of_mem _ hc', hm⟩
        · cases hrest : getKeysFromList rest with
          | none => rw [hrest] at h; cases h
          | some ks' =>
            rw [hrest] at h
            cases Option.some.inj h
            rcases List.mem_cons.mp hk with rfl | hk'
            · refine ⟨c, List.mem_cons_self c rest, ?_⟩
              simp [keyMatch, hn]
            · obtain ⟨c', hc', hm⟩ := ih ks' hrest hk'
              exact ⟨c', List.mem_cons_of_mem _ hc', hm⟩

lemma getKeysFromTrees_origin (ts : List Element) (ks : List Key)
    (h : getKeysFromTrees ts = some ks) (k : Key) (hk : k ∈ ks) :
    ∃ c ∈ getTagsFromTrees ts, keyMatch c k = true := by
  induction ts generalizing ks with
  | nil =>
    cases Option.some.inj h
    simp at hk
  | cons t ts ih =>
    rw [getKeysFromTrees] at h
    cases hk1 : getKeysFromTree t with
    | none => rw [hk1] at h; cases h
    | some ks1 =>
      rw [hk1] at h
      cases hk2 : getKeysFromTrees ts with
      | none => rw [hk2] at h; cases h
      | some ks2 =>
        rw [hk2] at h
        simp only [Option.bind_some, Option.pure_def] at h
        cases Option.some.inj h
        rcases List.mem_append.mp hk with h1 | h2
        · obtain ⟨c, hc, hm⟩ := getKeysFromList_origin t.children ks1 hk1 k h1
          refine ⟨c, ?_, hm⟩
          simp [getTagsFromTrees, getTagsFromTree]
          exact Or.inl hc
        · obtain ⟨c, hc, hm⟩ := ih ks2 hk2 h2
          refine ⟨c, ?_, hm⟩
          simp only [getTagsFromTrees, List.map_cons, List.flatten_cons, List.mem_append]
          right
          simpa [getTagsFromTrees] using hc

/-- Claim C9: when the looked-up keys come from the same trees as the
tag list — as in `writeMissingKeysToFiles`, which looks up keys of
`difference ks T` where `ks = getKeysFromTrees trees` against
`getTagsFromTrees trees` — `getTagByKeyName` always finds a matching
tag: its fall-through `None` result is unreachable, so no missing
lookup result is ever appended to the output root. -/
theorem c9_lookup_never_misses (ts : List Element) (ks : List Key)
    (h : getKeysFromTrees ts = some ks) (T : List Key) (k : Key)
    (hk : k ∈ difference ks T) :
    (getTagByKeyName (getTagsFromTrees ts) k).isSome = true := by
  have hks : k ∈ ks := (mem_difference.mp hk).1
  obtain ⟨c, hc, hm⟩ := getKeysFromTrees_origin ts ks h k hks
  rw [getTagByKeyName]
  exact List.find?_isSome.mpr ⟨c, hc, hm⟩

lemma isPrefixB_iff (p : List Char) : ∀ l, isPrefixB p l = true ↔ ∃ w, l = p ++ w := by
  induction p with
  | nil => intro l; simp [isPrefixB]
  | cons a as ih =>
    intro l
    cases l with
    | nil =>
      simp [isPrefixB]
    | cons b bs =>
      rw [isPrefixB, Bool.and_eq_true, beq_iff_eq, ih bs]
      constructor
      · rintro ⟨rfl, w, rfl⟩
        exact ⟨w, rfl⟩
      · rintro ⟨w, hw⟩
        obtain ⟨h1, h2⟩ := List.cons.inj hw
        exact ⟨h1.symm, w, h2⟩

lemma isSubB_iff (p : List Char) : ∀ l, isSubB p l = true ↔ ∃ u w, l = u ++ p ++ w := by
  intro l
  induction l with
  | nil =>
    rw [isSubB, List.isEmpty_iff]
    constructor
    · rintro rfl
      exact ⟨[], [], rfl⟩
    · rintro ⟨u, w, hw⟩
      rcases List.append_eq_nil.mp (List.append_eq_nil.mp hw.symm).1 with ⟨-, h⟩
      exact h
  | cons c cs ih =>
    rw [isSubB, Bool.or_eq_true, isPrefixB_iff, ih]
    constructor
    · rintro (⟨w, hw⟩ | ⟨u, w, hw⟩)
      · exact ⟨[], w, by simpa using hw⟩
      · exact ⟨c :: u, w, by simp [hw]⟩
    · rintro ⟨u, w, hw⟩
      cases u with
      | nil => exact Or.inl ⟨w, by simpa using hw⟩
      | cons x us =>
        obtain ⟨-, h2⟩ := List.cons.inj hw
        exact Or.inr ⟨us, w, h2⟩

/-- The acceptance condition of `getLangDir` on the code slice, as a
proposition: length 2, length 5 or 6 with `-` at index 2, or a `port` /
`land` substring with `-` at index 2. -/
lemma langCond_iff (l : List Char) :
    (l.length == 2
        || (l.length == 5 && l[2]? == some '-')
        || (l.length == 6 && l[2]? == some '-')
        || (isSubB "port".toList l && l[2]? == some '-')
        || (isSubB "land".toList l && l[2]? == some '-')) = true
    ↔ (l.length = 2
        ∨ (l.length = 5 ∧ l[2]? = some '-')
        ∨ (l.length = 6 ∧ l[2]? = some '-')
        ∨ ((∃ u w, l = u ++ "port".toList ++ w) ∧ l[2]? = some '-')
        ∨ ((∃ u w, l = u ++ "land".toList ++ w) ∧ l[2]? = some '-')) := by
  simp only [Bool.or_eq_true, Bool.and_eq_true, beq_iff_eq, isSubB_iff, or_assoc]

/-- Claim C7 counterexample: `./values-ab-portrait` is accepted by
`getLangDir` with code `ab-portrait`, although that name is none of the
claimed exact forms (2 letters; 2+sep+2; 2+sep+3; 2+sep+4-letter
`port`/`land` qualifier — i.e. code length 2, 5, 6 or 7): the code only
requires `port`/`land` to occur as a substring with `-` at index 2. -/
theorem c7_counterexample_substring_port :
    getLangDir "./values-ab-portrait" = some "ab-portrait"
    ∧ ¬("ab-portrait".length = 2 ∨ "ab-portrait".length = 5
        ∨ "ab-portrait".length = 6 ∨ "ab-portrait".length = 7) := by
  constructor
  · decide
  · decide

/-- Claim C7 amended: `getLangDir` accepts a walked directory path and
extracts `code` exactly when the path's characters from index 2 start
with `values-` and the slice from index 9 (the code) either has length
2, has length 5 or 6 with `-` at index 2, or contains `port` or `land`
as a substring with `-` at index 2.  (In particular the canonical
`values` directory never matches the `values-` prefix, and any walked
path — not only immediate subdirectories — is accepted when its
character pattern matches.) -/
theorem c7_amended_structural_match (d : String) (code : String) :
    getLangDir d = some code ↔
      ((∃ w, d.toList.drop 2 = "values-".toList ++ w)
        ∧ code.toList = d.toList.drop 9
        ∧ (code.toList.length = 2
            ∨ (code.toList.length = 5 ∧ code.toList[2]? = some '-')
            ∨ (code.toList.length = 6 ∧ code.toList[2]? = some '-')
            ∨ ((∃ u w, code.toList = u ++ "port".toList ++ w) ∧ code.toList[2]? = some '-')
            ∨ ((∃ u w, code.toList = u ++ "land".toList ++ w) ∧ code.toList[2]? = some '-'))) := by
  rw [getLangDir]
  by_cases hpre : isPrefixB "values-".toList (d.toList.drop 2) = true
  · rw [if_pos hpre]
    have hpre' := (isPrefixB_iff _ _).mp hpre
    by_cases hcond : ((d.toList.drop 9).length == 2
        || ((d.toList.drop 9).length == 5 && (d.toList.drop 9)[2]? == some '-')
        || ((d.toList.drop 9).length == 6 && (d.toList.drop 9)[2]? == some '-')
        || (isSubB "port".toList (d.toList.drop 9) && (d.toList.drop 9)[2]? == some '-')
        || (isSubB "land".toList (d.toList.drop 9) && (d.toList.drop 9)[2]? == some '-')) = true
    · rw [if_pos hcond]
      constructor
      · intro hsome
        have hcode : String.mk (d.toList.drop 9) = code := Option.some.inj hsome
        have hct : code.toList = d.toList.drop 9 := by
          rw [← hcode]
          rfl
        refine ⟨hpre', hct, ?_⟩
        rw [← hct] at hcond
        exact (langCond_iff code.toList).mp hcond
      · rintro ⟨-, hct, -⟩
        cases code with
        | mk data =>
          have : d.toList.drop 9 = data := hct.symm
          rw [this]
    · rw [if_neg hcond]
      constructor
      · intro h
        cases h
      · rintro ⟨-, hct, hdisj⟩
        rw [hct] at hdisj
        exact absurd ((langCond_iff (d.toList.drop 9)).mpr hdisj) hcond
  · rw [if_neg hpre]
    constructor
    · intro h
      cases h
    · rintro ⟨⟨w, hw⟩, -, -⟩
      exact absurd ((isPrefixB_iff _ _).mpr ⟨w, hw⟩) hpre

/-- Witness for C9 at the concrete fixture. -/
theorem c9_lookup_never_misses_witness :
    (getKeysFromTrees [exDefaultTree]
        = some [(("string" : String), some "test_1"), ("string", some "test_2")]
      ∧ ("string", some "test_1") ∈
          difference [(("string" : String), some "test_1"), ("string", some "test_2")]
            [(("string" : String), some "test_2")])
    ∧ (getTagByKeyName (getTagsFromTrees [exDefaultTree]) ("string", some "test_1")).isSome
        = true :=
  ⟨⟨by decide, by decide⟩,
   c9_lookup_never_misses [exDefaultTree]
     [("string", some "test_1"), ("string", some "test_2")] (by decide)
     [("string", some "test_2")] ("string", some "test_1") (by decide)⟩

/-! ## Serialization lemmas (claim C8) -/

lemma serializeElem_eq_core (e : Element) :
    serializeElem e = serializeCore e ++ escCdata e.tail := by
  cases e
  rfl

lemma serializeChildren_eq (cs : List Element) :
    serializeChildren cs = (cs.map serializeElem).flatten := by
  induction cs with
  | nil => rfl
  | cons c cs ih => rw [serializeChildren, ih, List.map_cons, List.flatten_cons]

lemma serializeCore_snoc (e : Element) : ∃ ini, serializeCore e = ini ++ ['>'] := by
  cases e with
  | mk tag attrs text children tail =>
    refine ⟨('<' :: tag.toList ++ attrsChars attrs)
      ++ (if text.isEmpty && children.isEmpty then " /".toList
          else '>' :: escCdata text ++ serializeChildren children
                ++ '<' :: '/' :: tag.toList), ?_⟩
    rw [serializeCore]
    simp only [Element.tag, Element.attrs, Element.text, Element.children,
      List.append_assoc]

lemma serializeCore_ne_nil (e : Element) : serializeCore e ≠ [] := by
  obtain ⟨ini, h⟩ := serializeCore_snoc e
  rw [h]
  simp

lemma escCdataChar_no_angle (x : Char) :
    ∀ c ∈ escCdataChar x, (c == '>') = false ∧ (c == '<') = false := by
  intro c hc
  unfold escCdataChar at hc
  split at hc
  · fin_cases hc <;> exact ⟨by decide, by decide⟩
  · split at hc
    · fin_cases hc <;> exact ⟨by decide, by decide⟩
    · split at hc
      · fin_cases hc <;> exact ⟨by decide, by decide⟩
      · rename_i h1 h2 h3
        rw [List.mem_singleton] at hc
        subst hc
        exact ⟨Bool.eq_false_iff.mpr h3, Bool.eq_false_iff.mpr h2⟩

lemma escCdata_no_angle (s : String) :
    ∀ c ∈ escCdata s, (c == '>') = false ∧ (c == '<') = false := by
  intro c hc
  rw [escCdata] at hc
  obtain ⟨l, hl, hcl⟩ := List.mem_flatten.mp hc
  obtain ⟨x, -, rfl⟩ := List.mem_map.mp hl
  exact escCdataChar_no_angle x c hcl

lemma prefix_sPat_head_ne (ch : Char) (t : List Char) (h : (ch == '<') = false) :
    isPrefixB sPat (ch :: t) = false := by
  have h' : (('<' : Char) == ch) = false :=
    beq_eq_false_iff_ne.mpr (Ne.symm (beq_eq_false_iff_ne.mp h))
  rw [show sPat = '<' :: "string".toList from rfl, isPrefixB, h', Bool.false_and]

lemma replaceTag_no_gt (t : List Char) (ht : ∀ c ∈ t, (c == '>') = false) :
    ∀ rest, replaceTag (t ++ rest) = t ++ replaceTag rest := by
  induction t with
  | nil => intro rest; rfl
  | cons c t ih =>
    intro rest
    have hc := ht c (List.mem_cons_self c t)
    have ih' := ih (fun x hx => ht x (List.mem_cons_of_mem _ hx)) rest
    rw [List.cons_append, replaceTag, hc, Bool.false_and]
    rw [if_neg (by simp : ¬ (false : Bool) = true), ih']
    rfl

lemma replaceTag_safe_block (v : List Char) : ∀ rest, v ≠ [] →
    (∃ ini, v = ini ++ ['>']) → isSubB "><s".toList v = false →
    replaceTag (v ++ rest) =
      v ++ (if isPrefixB sPat rest then wsBlock else []) ++ replaceTag rest := by
  induction v with
  | nil => intro rest hne _ _; exact absurd rfl hne
  | cons c v ih =>
    intro rest _ hend hsub
    cases v with
    | nil =>
      have hc : c = '>' := by
        obtain ⟨ini, hini⟩ := hend
        cases ini with
        | nil => exact (List.cons.inj hini).1
        | cons x xs =>
          obtain ⟨-, h2⟩ := List.cons.inj hini
          exact absurd h2.symm (by simp)
      subst hc
      rw [List.singleton_append, replaceTag]
      by_cases hp : isPrefixB sPat rest = true
      · simp [hp]
      · have hp' : isPrefixB sPat rest = false := Bool.eq_false_iff.mpr hp
        simp [hp']
    | cons b v' =>
      have hend' : ∃ ini, b :: v' = ini ++ ['>'] := by
        obtain ⟨ini, hini⟩ := hend
        cases ini with
        | nil =>
          obtain ⟨-, h2⟩ := List.cons.inj hini
          exact absurd h2 (List.cons_ne_nil _ _)
        | cons x xs =>
          obtain ⟨-, h2⟩ := List.cons.inj hini
          exact ⟨xs, h2⟩
      rw [isSubB, Bool.or_eq_false_iff] at hsub
      obtain ⟨hpfx, hsub'⟩ := hsub
      have hcond : (c == '>' && isPrefixB sPat (b :: (v' ++ rest))) = false := by
        by_cases hc : c = '>'
        · subst hc
          rw [beq_self_eq_true, Bool.true_and]
          by_cases hb : b = '<'
          · subst hb
            cases v' with
            | nil =>
              obtain ⟨ini, hini⟩ := hend'
              cases ini with
              | nil => simp at hini
              | cons x xs =>
                obtain ⟨-, h2⟩ := List.cons.inj hini
                exact absurd h2.symm (by simp)
            | cons d v'' =>
              by_cases hd : d = 's'
              · subst hd
                exfalso
                rw [show ("><s".toList) = ['>', '<', 's'] from rfl] at hpfx
                simp [isPrefixB] at hpfx
              · have hd' : (('s' : Char) == d) = false :=
                  beq_eq_false_iff_ne.mpr (Ne.symm hd)
                rw [show sPat = '<' :: 's' :: "tring".toList from rfl]
                rw [List.cons_append, isPrefixB, isPrefixB, hd']
                simp
          · have hb' : (('<' : Char) == b) = false :=
              beq_eq_false_iff_ne.mpr (Ne.symm hb)
            rw [show sPat = '<' :: "string".toList from rfl, isPrefixB, hb', Bool.false_and]
        · have hc' : (c == '>') = false := beq_eq_false_iff_ne.mpr hc
          rw [hc', Bool.false_and]
      rw [List.cons_append, List.cons_append, replaceTag, hcond]
      rw [if_neg (by simp : ¬ (false : Bool) = true)]
      rw [show b :: (v' ++ rest) = (b :: v') ++ rest from rfl]
      rw [ih rest (List.cons_ne_nil _ _) hend' hsub']
      simp [List.append_assoc]

lemma replaceTag_close :
    replaceTag "</resources>".toList = "</resources>".toList := by
  rfl

lemma prefix_close : isPrefixB sPat "</resources>".toList = false := by
  rfl

lemma prefix_sPat_escTail (s : String) (X : List Char)
    (hX : isPrefixB sPat X = false) :
    isPrefixB sPat (escCdata s ++ X) = false := by
  cases h : escCdata s with
  | nil => simpa using hX
  | cons ch t' =>
    have hlt : (ch == '<') = false :=
      (escCdata_no_angle s ch (by rw [h]; exact List.mem_cons_self _ _)).2
    rw [List.cons_append]
    exact prefix_sPat_head_ne ch _ hlt

lemma replaceTag_chain (cs : List Element) : ∀ (c : Element),
    isSubB "><s".toList (serializeCore c) = false →
    (∀ x ∈ cs, isSubB "><s".toList (serializeCore x) = false) →
    ∃ w : List Bool, w.length = cs.length ∧
      replaceTag ((List.map serializeElem (c :: cs)).flatten ++ "</resources>".toList) =
        serializeElem c ++ (List.zipWith emitChild w cs).flatten
          ++ "</resources>".toList := by
  induction cs with
  | nil =>
    intro c hc _
    refine ⟨[], rfl, ?_⟩
    rw [List.map_cons, List.map_nil, List.flatten_cons, List.flatten_nil,
      List.append_nil, serializeElem_eq_core, List.append_assoc]
    rw [replaceTag_safe_block (serializeCore c) _ (serializeCore_ne_nil c)
      (serializeCore_snoc c) hc]
    rw [prefix_sPat_escTail c.tail _ prefix_close]
    rw [if_neg (by simp : ¬ (false : Bool) = true)]
    rw [replaceTag_no_gt (escCdata c.tail)
      (fun ch hch => (escCdata_no_angle c.tail ch hch).1) _]
    rw [replaceTag_close]
    simp [List.append_assoc]
  | cons c2 cs ih =>
    intro c hc hall
    have hc2 : isSubB "><s".toList (serializeCore c2) = false :=
      hall c2 (List.mem_cons_self _ _)
    obtain ⟨w', hlen, hrec⟩ :=
      ih c2 hc2 (fun x hx => hall x (List.mem_cons_of_mem _ hx))
    rw [List.map_cons (f := serializeElem) (l := c2 :: cs), List.flatten_cons,
      serializeElem_eq_core c, List.append_assoc, List.append_assoc]
    rw [replaceTag_safe_block (serializeCore c) _ (serializeCore_ne_nil c)
      (serializeCore_snoc c) hc]
    by_cases htail : escCdata c.tail = []
    · refine ⟨isPrefixB sPat ((List.map serializeElem (c2 :: cs)).flatten
        ++ "</resources>".toList) :: w', by simp [hlen], ?_⟩
      rw [htail, List.nil_append, hrec, List.zipWith_cons_cons, List.flatten_cons]
      simp [emitChild, List.append_assoc]
    · obtain ⟨ch, t', htl⟩ := List.exists_cons_of_ne_nil htail
      have hlt : (ch == '<') = false :=
        (escCdata_no_angle c.tail ch (by rw [htl]; exact List.mem_cons_self _ _)).2
      have hgt : ∀ x ∈ escCdata c.tail, (x == '>') = false :=
        fun x hx => (escCdata_no_angle c.tail x hx).1
      refine ⟨false :: w', by simp [hlen], ?_⟩
      have hpfx : isPrefixB sPat (escCdata c.tail
          ++ ((List.map serializeElem (c2 :: cs)).flatten
            ++ "</resources>".toList)) = false := by
        rw [htl, List.cons_append]
        exact prefix_sPat_head_ne ch _ hlt
      rw [hpfx, if_neg (by simp : ¬ (false : Bool) = true)]
      rw [replaceTag_no_gt (escCdata c.tail) hgt _, hrec]
      rw [List.zipWith_cons_cons, List.flatten_cons]
      simp [emitChild, List.append_assoc]

lemma serializeElem_resRoot (c : Element) (cs : List Element) :
    serializeElem (resRoot (c :: cs)) =
      "<resources>".toList ++ ((List.map serializeElem (c :: cs)).flatten
        ++ "</resources>".toList) := by
  rw [resRoot, serializeElem, ← serializeChildren_eq]
  simp [escCdata, attrsChars]

/-- Claim C8 counterexample: for the entry `exNested` (which nests a
`string`-tagged child directly after a `>`), the indentation fix of
`prettify` rewrites the inside of the entry: the entry's own serialized
payload no longer occurs in the output (re-parsing would yield nested
text `"\n    "` where the original had none), contradicting the claim
that the formatting never alters any child's own content. -/
theorem c8_counterexample_nested_string :
    isSubB (serializeCore exNested) (prettify (resRoot [exNested])) = false := by
  decide

/-- Claim C8 amended: for a non-empty list of entries none of whose own
serialized payload contains `><s` (no nested `string...`-tagged element
directly after a `>`), `prettify` produces the XML declaration followed
by a single `resources` root whose direct children are exactly the
given entries, in the given order, each one's payload and tail
serialized verbatim, with at most one deterministic whitespace block
inserted before an entry; the formatting is a pure function of the
input (deterministic).  For an entry whose payload does contain `><s`,
the indentation fix may alter the entry's nested content
(`c8_counterexample_nested_string`). -/
theorem c8_prettify_structure (cs : List Element) (hne : cs ≠ [])
    (hsafe : ∀ c ∈ cs, isSubB "><s".toList (serializeCore c) = false) :
    ∃ w : List Bool, w.length = cs.length ∧
      prettify (resRoot cs) =
        xmlDecl ++ "<resources>".toList
          ++ (List.zipWith emitChild w cs).flatten ++ "</resources>".toList := by
  cases cs with
  | nil => exact absurd rfl hne
  | cons c cs' =>
    obtain ⟨w', hlen, hrec⟩ := replaceTag_chain cs' c (hsafe c (List.mem_cons_self _ _))
      (fun x hx => hsafe x (List.mem_cons_of_mem _ hx))
    rw [prettify, serializeElem_resRoot]
    rw [show xmlDecl ++ ("<resources>".toList ++ ((List.map serializeElem (c :: cs')).flatten
          ++ "</resources>".toList))
        = (xmlDecl ++ "<resources>".toList) ++ ((List.map serializeElem (c :: cs')).flatten
          ++ "</resources>".toList) by simp [List.append_assoc]]
    rw [replaceTag_safe_block (xmlDecl ++ "<resources>".toList) _ (by decide)
      ⟨xmlDecl ++ "<resources".toList, by decide⟩ (by decide)]
    rw [hrec]
    refine ⟨isPrefixB sPat ((List.map serializeElem (c :: cs')).flatten
      ++ "</resources>".toList) :: w', by simp [hlen], ?_⟩
    rw [List.zipWith_cons_cons, List.flatten_cons, emitChild]
    simp [List.append_assoc]

/-- Witness for the amended C8 on two plain string entries. -/
theorem c8_prettify_structure_witness :
    ([entry "test_1" "One", entry "test_2" "Two"] ≠ ([] : List Element)
      ∧ ∀ c ∈ [entry "test_1" "One", entry "test_2" "Two"],
          isSubB "><s".toList (serializeCore c) = false)
    ∧ ∃ w : List Bool, w.length = [entry "test_1" "One", entry "test_2" "Two"].length ∧
        prettify (resRoot [entry "test_1" "One", entry "test_2" "Two"]) =
          xmlDecl ++ "<resources>".toList
            ++ (List.zipWith emitChild w [entry "test_1" "One", entry "test_2" "Two"]).flatten
            ++ "</resources>".toList :=
  ⟨⟨List.cons_ne_nil _ _, by decide⟩,
   c8_prettify_structure [entry "test_1" "One", entry "test_2" "Two"]
     (List.cons_ne_nil _ _) (by decide)⟩

end TranslationHelper
